import Mathlib

/-!
Verification development for the niche-git core: a shallow embedding of the
tree-merge engine (internal/merge/tree_merger.go), the diff3 conflict resolver
(internal/resolvediff3/resolvediff3.go), the receive-pack push request builder
(internal/push/push.go), the protocol-V2 fetch retry loop
(internal/fetch/common.go together with gitprotocontext/context.go), the
squash-cherry-pick packfile assembly (squash_cherry_pick.go), the backport
push step, the linear-rebase branch discovery (findBranches), and the
merge-base search (findMergeBases).

Git object hashes are modelled content-addressed: the hash of a tree or a
commit is an injective encoding of its content, mirroring SHA-1
content-addressing under the usual no-collision assumption.  A tree object is
a list of entries (name, mode, hash); a commit hash carries a payload
discriminator and the encoded list of parent hashes.
-/

namespace NicheGit



/-- File modes of git tree entries, following go-git's filemode package. -/
inductive Mode where
  | regular
  | executable
  | symlink
  | dir
  | submodule
  deriving DecidableEq, Repr

/-- go-git FileMode.IsFile: regular and executable files (the deprecated
group-writable mode is not modelled). -/
def Mode.isFile : Mode → Bool
  | .regular => true
  | .executable => true
  | _ => false

/-- Content-addressed object identifiers.  A blob hash carries the blob bytes,
a tree hash carries its entry list (flattened into treeNil/treeCons so the
type is a plain inductive), a commit hash carries a payload discriminator and
its parent hashes (flattened into hnil/hcons).  zeroH is git's zero hash. -/
inductive GitHash where
  | blobH : List Nat → GitHash
  | treeNil : GitHash
  | treeCons : String → Mode → GitHash → GitHash → GitHash
  | commitH : Nat → GitHash → GitHash
  | hnil : GitHash
  | hcons : GitHash → GitHash → GitHash
  | zeroH : GitHash
  deriving DecidableEq, Repr

/-- One git tree entry: (name, mode, target hash). -/
structure TreeEntry where
  name : String
  mode : Mode
  hash : GitHash
  deriving DecidableEq, Repr

/-- A tree object is its ordered entry list. -/
abbrev Tree := List TreeEntry

/-- The hash of a tree object: the injective encoding of its entry list. -/
def encodeTree : Tree → GitHash
  | [] => .treeNil
  | e :: es => .treeCons e.name e.mode e.hash (encodeTree es)

/-- Decoding a tree object from its hash; models object.GetTree succeeding on
a storage that holds every tree transitively referenced by its hash. -/
def getTree? : GitHash → Option Tree
  | .treeNil => some []
  | .treeCons n m h rest => (getTree? rest).map (⟨n, m, h⟩ :: ·)
  | _ => none

/-- Structural size of a hash, used to bound recursion depth. -/
def hsize : GitHash → Nat
  | .blobH _ => 1
  | .treeNil => 1
  | .treeCons _ _ h rest => 1 + hsize h + hsize rest
  | .commitH _ ps => 1 + hsize ps
  | .hnil => 1
  | .hcons h rest => 1 + hsize h + hsize rest
  | .zeroH => 1

def esize (e : TreeEntry) : Nat := 1 + hsize e.hash

def tsize (t : Tree) : Nat := (t.map esize).sum

def osize : Option Tree → Nat
  | none => 0
  | some t => tsize t

/-! ## Push request construction (internal/push/push.go, Push) -/

/-- RefUpdate from internal/push/push.go: name, optional expected old value,
new value. -/
structure RefUpdate where
  name : String
  oldHash : Option GitHash
  newHash : GitHash
  deriving DecidableEq, Repr

/-- One receive-pack command line (old, new, ref). -/
structure PushCommand where
  name : String
  old : GitHash
  new : GitHash
  deriving DecidableEq, Repr

/-- The parts of the packp ReferenceUpdateRequest that the claims concern. -/
structure PushRequest where
  capabilities : List String
  commands : List PushCommand
  deriving DecidableEq, Repr

/-- capability.List.Add for a valueless capability: appends it when absent
(the Go code discards the error returned when it is already present, leaving
the list unchanged). -/
def addCapability (caps : List String) (c : String) : List String :=
  if caps.contains c then caps else caps ++ [c]

/-- Lookup in the advertised references map (advRef.References). -/
def lookupRef (advRefs : List (String × GitHash)) (n : String) : Option GitHash :=
  (advRefs.find? (fun p => p.1 == n)).map (·.2)

/-- The old-hash selection of Push (push.go lines 72-85): the caller-supplied
expected old hash when present, else the advertised value, else the zero
hash. -/
def commandOf (advRefs : List (String × GitHash)) (u : RefUpdate) : PushCommand :=
  { name := u.name
    new := u.newHash
    old :=
      match u.oldHash with
      | some h => h
      | none =>
        match lookupRef advRefs u.name with
        | some h => h
        | none => .zeroH }

/-- The request built by Push (push.go lines 67-85): capabilities copied from
the advertisement by NewReferenceUpdateRequestFromCapabilities (passed in as
baseCaps), then "atomic" added, then one command per RefUpdate. -/
def buildPushRequest (baseCaps : List String) (advRefs : List (String × GitHash))
    (updates : List RefUpdate) : PushRequest :=
  { capabilities := addCapability baseCaps "atomic"
    commands := updates.map (commandOf advRefs) }

/-! ## Three-way conflict classification (internal/merge/tree_merger.go) -/

inductive ConflictType where
  | noChange
  | takeChange1
  | takeChange2
  | sameChange
  | conflict
  deriving DecidableEq, Repr

/-- hasChange from tree_merger.go lines 215-229: false iff both entries are
absent, or both are present with identical mode and hash. -/
def hasChange : Option TreeEntry → Option TreeEntry → Bool
  | none, some _ => true
  | some _, none => true
  | none, none => false
  | some e1, some e2 => !(e1.mode == e2.mode && e1.hash == e2.hash)

/-- checkConflictType from tree_merger.go lines 197-213. -/
def checkConflictType (entry1 entry2 entryBase : Option TreeEntry) : ConflictType :=
  let entry1Changed := hasChange entry1 entryBase
  let entry2Changed := hasChange entry2 entryBase
  if !entry1Changed && !entry2Changed then .noChange
  else if entry1Changed && !entry2Changed then .takeChange1
  else if !entry1Changed && entry2Changed then .takeChange2
  else if !(hasChange entry1 entry2) then .sameChange
  else .conflict

/-- The spec's changed(x, base) predicate, written from the spec's words:
false exactly when both are absent or both are present with identical mode
and hash. -/
def specChanged (x base : Option TreeEntry) : Bool :=
  !((x == none && base == none) ||
    (match x, base with
     | some a, some b => a.mode == b.mode && a.hash == b.hash
     | _, _ => false))

/-- The spec's classification table, written from the spec's words: no-change
when neither side changed, take-a when only a changed, take-b when only b
changed, same-change when both changed and a equals b, conflict otherwise. -/
def specClassify (a b base : Option TreeEntry) : ConflictType :=
  if !(specChanged a base) && !(specChanged b base) then .noChange
  else if specChanged a base && !(specChanged b base) then .takeChange1
  else if !(specChanged a base) && specChanged b base then .takeChange2
  else if a == b then .sameChange
  else .conflict

/-! ## Canonical tree-entry ordering (go-git object.TreeEntrySorter) -/

/-- Lexicographic comparison of character lists by code point, modelling
Go's byte-wise string comparison (they agree on the ASCII names involved). -/
def charListLt : List Char → List Char → Bool
  | [], [] => false
  | [], _ :: _ => true
  | _ :: _, [] => false
  | a :: as, b :: bs =>
    if a.toNat < b.toNat then true
    else if b.toNat < a.toNat then false
    else charListLt as bs

def strLt (a b : String) : Bool := charListLt a.toList b.toList

/-- go-git's tree-entry sort key: a directory name sorts as if suffixed with
a slash. -/
def sortKey (e : TreeEntry) : String :=
  if e.mode = .dir then e.name ++ "/" else e.name

/-- Ordered insertion used to model sort.Sort with the TreeEntrySorter
comparison (the Go sort is unstable; on the unique keys produced by the
merger the result is the same). -/
def insertEntry (e : TreeEntry) : List TreeEntry → List TreeEntry
  | [] => [e]
  | x :: xs => if strLt (sortKey e) (sortKey x) then e :: x :: xs else x :: insertEntry e xs

def sortEntries : List TreeEntry → List TreeEntry
  | [] => []
  | e :: es => insertEntry e (sortEntries es)

/-- A tree is in canonical git order when consecutive entries are
non-decreasing under the TreeEntrySorter key. -/
def SortedGit (t : Tree) : Prop :=
  List.Chain' (fun a b => strLt (sortKey b) (sortKey a) = false) t

/-! ## Tree merger (internal/merge/tree_merger.go) -/

/-- The mutable bookkeeping of treeMerger (tree_merger.go lines 61-71). -/
structure MergeState where
  filesPickedEntry1 : List String
  filesPickedEntry2 : List String
  filesPickedEntry12 : List String
  filesConflict : List String
  newHashes : List GitHash
  deriving DecidableEq, Repr

def MergeState.init : MergeState := ⟨[], [], [], [], []⟩

/-- The resolver capability (tree_merger.go line 34).  σ is the resolver's
own mutable state (the Go resolvers mutate their receiver); a none result
models a Go error. -/
def Resolver (σ : Type) :=
  σ → String → Option TreeEntry → Option TreeEntry → Option TreeEntry →
    Option (List TreeEntry × σ)

/-- Lookup in the name-keyed entry map built by mergeInternal (lines 94-111);
on duplicate names the later entry wins, as with the Go map assignment. -/
def mapLookup (t : Tree) (n : String) : Option TreeEntry :=
  match t with
  | [] => none
  | e :: es =>
    match mapLookup es n with
    | some r => some r
    | none => if e.name == n then some e else none

/-- Keep-first deduplication, giving a deterministic iteration order for the
name set that mergeInternal ranges over (Go map iteration order is
unspecified; the per-name work is order-independent and the final entry list
is sorted). -/
def dedupFirst : List String → List String
  | [] => []
  | n :: ns => n :: (dedupFirst ns).filter (fun m => m ≠ n)

/-- The union of the entry names of the three trees. -/
def collectNames (t1 t2 : Tree) (base? : Option Tree) : List String :=
  dedupFirst (t1.map (·.name) ++ t2.map (·.name) ++
    (match base? with | some b => b.map (·.name) | none => []))

/-- path.Join as used on the merger's slash-free path components. -/
def pathJoin (p n : String) : String :=
  if p == "" then n else p ++ "/" ++ n

/-- The per-name loop of mergeInternal (lines 113-171), with the recursion
into conflicting directory pairs inlined (lines 140-161; the inlined tail —
sort, encode, record the hash — is the body of mergeInternal lines 172-183).
The Nat fuel bounds the recursion depth; the Go recursion is bounded by the
structural size of the trees, so the wrappers below supply an
always-sufficient amount.  A none result models a Go error (or the nil
dereference of entryBase, which is unreachable when the name list comes from
the trees). -/
def mergeLoop (resolve : Resolver σ) :
    Nat → String → Tree → Tree → Option Tree → List String → MergeState → σ →
    Option (List TreeEntry × MergeState × σ)
  | 0, _, _, _, _, _, _, _ => none
  | fuel + 1, pth, t1, t2, base?, names, st, rs =>
    match names with
    | [] => some ([], st, rs)
    | n :: ns =>
      let entry1 := mapLookup t1 n
      let entry2 := mapLookup t2 n
      let entryBase := base?.bind (fun b => mapLookup b n)
      match checkConflictType entry1 entry2 entryBase with
      | .noChange =>
        match entryBase with
        | none => none
        | some eb =>
          match mergeLoop resolve fuel pth t1 t2 base? ns st rs with
          | none => none
          | some (es, st', rs') => some (eb :: es, st', rs')
      | .takeChange1 =>
        let st := { st with filesPickedEntry1 := st.filesPickedEntry1 ++ [pathJoin pth n] }
        match mergeLoop resolve fuel pth t1 t2 base? ns st rs with
        | none => none
        | some (es, st', rs') =>
          some ((match entry1 with | some e => [e] | none => []) ++ es, st', rs')
      | .takeChange2 =>
        let st := { st with filesPickedEntry2 := st.filesPickedEntry2 ++ [pathJoin pth n] }
        match mergeLoop resolve fuel pth t1 t2 base? ns st rs with
        | none => none
        | some (es, st', rs') =>
          some ((match entry2 with | some e => [e] | none => []) ++ es, st', rs')
      | .sameChange =>
        let st := { st with filesPickedEntry12 := st.filesPickedEntry12 ++ [pathJoin pth n] }
        match mergeLoop resolve fuel pth t1 t2 base? ns st rs with
        | none => none
        | some (es, st', rs') =>
          some ((match entry1 with | some e => [e] | none => []) ++ es, st', rs')
      | .conflict =>
        match entry1, entry2 with
        | some e1, some e2 =>
          if e1.mode = .dir ∧ e2.mode = .dir then
            match getTree? e1.hash, getTree? e2.hash with
            | some sub1, some sub2 =>
              let subBaseRes : Option (Option Tree) :=
                match entryBase with
                | some ebe =>
                  if ebe.mode = .dir then (getTree? ebe.hash).map some else some none
                | none => some none
              match subBaseRes with
              | none => none
              | some subBase? =>
                match mergeLoop resolve fuel (pathJoin pth n) sub1 sub2 subBase?
                    (collectNames sub1 sub2 subBase?) st rs with
                | none => none
                | some (subEntries, st, rs) =>
                  let h := encodeTree (sortEntries subEntries)
                  let st := { st with newHashes := st.newHashes ++ [h] }
                  match mergeLoop resolve fuel pth t1 t2 base? ns st rs with
                  | none => none
                  | some (es, st', rs') =>
                    some ((⟨n, .dir, h⟩ : TreeEntry) :: es, st', rs')
            | _, _ => none
          else
            let st := { st with filesConflict := st.filesConflict ++ [pathJoin pth n] }
            match resolve rs pth entry1 entry2 entryBase with
            | none => none
            | some (resolvedEntries, rs) =>
              match mergeLoop resolve fuel pth t1 t2 base? ns st rs with
              | none => none
              | some (es, st', rs') => some (resolvedEntries ++ es, st', rs')
        | _, _ =>
          let st := { st with filesConflict := st.filesConflict ++ [pathJoin pth n] }
          match resolve rs pth entry1 entry2 entryBase with
          | none => none
          | some (resolvedEntries, rs) =>
            match mergeLoop resolve fuel pth t1 t2 base? ns st rs with
            | none => none
            | some (es, st', rs') => some (resolvedEntries ++ es, st', rs')

/-- mergeInternal (tree_merger.go lines 93-184): run the per-name loop on the
union of names, sort the result with the canonical tree-entry order, encode
it and record the new tree hash. -/
def mergeInternalF (resolve : Resolver σ) (fuel : Nat) (pth : String) (t1 t2 : Tree)
    (base? : Option Tree) (st : MergeState) (rs : σ) : Option (GitHash × MergeState × σ) :=
  match mergeLoop resolve fuel pth t1 t2 base? (collectNames t1 t2 base?) st rs with
  | none => none
  | some (entries, st, rs) =>
    let h := encodeTree (sortEntries entries)
    some (h, { st with newHashes := st.newHashes ++ [h] }, rs)

/-- treeMerger.Merge (tree_merger.go lines 73-91): short-circuit on equal
tree hashes, otherwise merge.  In the content-addressed model a fetched
tree's stored hash is the encoding of its entries. -/
def MergeF (resolve : Resolver σ) (fuel : Nat) (t1 t2 : Tree) (base? : Option Tree)
    (st : MergeState) (rs : σ) : Option (GitHash × MergeState × σ) :=
  let shortCircuit : Option GitHash :=
    match base? with
    | some mergeBase =>
      if encodeTree t1 ≠ encodeTree mergeBase ∧ encodeTree t2 = encodeTree mergeBase then
        some (encodeTree t1)
      else if encodeTree t1 = encodeTree mergeBase ∧ encodeTree t2 ≠ encodeTree mergeBase then
        some (encodeTree t2)
      else if encodeTree t1 = encodeTree mergeBase ∧ encodeTree t2 = encodeTree mergeBase then
        some (encodeTree mergeBase)
      else none
    | none => none
  match shortCircuit with
  | some h => some (h, st, rs)
  | none =>
    if encodeTree t1 = encodeTree t2 then some (encodeTree t1, st, rs)
    else mergeInternalF resolve fuel "" t1 t2 base? st rs

/-- A fuel amount ample for the size-bounded recursion of the merger. -/
def mergeFuel (t1 t2 : Tree) (base? : Option Tree) : Nat :=
  2 * (tsize t1 + tsize t2 + osize base?) + 2

/-- MergeTree (tree_merger.go lines 37-59): run Merge on a fresh merger
state. -/
def MergeTree (resolve : Resolver σ) (t1 t2 : Tree) (base? : Option Tree) (rs : σ) :
    Option (GitHash × MergeState × σ) :=
  MergeF resolve (mergeFuel t1 t2 base?) t1 t2 base? MergeState.init rs

/-- conflictBlobCollector.Resolve (squash_cherry_pick.go lines 455-460, the
same helper appears in pushSquashCherryPick and the rebases): record the
blob hashes of file-file-file conflicts and produce no entries. -/
def conflictBlobCollector : Resolver (List GitHash) :=
  fun blobHashes _parentPath entry1 entry2 entryBase =>
    match entry1, entry2, entryBase with
    | some e1, some e2, some eb =>
      if e1.mode.isFile && e2.mode.isFile && eb.mode.isFile then
        some ([], blobHashes ++ [e1.hash, e2.hash, eb.hash])
      else
        some ([], blobHashes)
    | _, _, _ => some ([], blobHashes)

/-! ## Diff3 conflict resolver (internal/resolvediff3/resolvediff3.go) -/

/-- Outcome of the external diff3 engine on three blob contents. -/
inductive Diff3Outcome where
  | binaryContent
  | engineError
  | merged : List Nat → Bool → Diff3Outcome
  deriving DecidableEq, Repr

/-- The Diff3Resolver struct (resolvediff3.go lines 20-33). -/
structure Diff3Resolver where
  sideALabel : String
  sideBLabel : String
  sideARejectionSuffix : String
  sideBRejectionSuffix : String
  BinaryConflictFiles : List String
  NonFileConflictFiles : List String
  ConflictOpenFiles : List String
  ConflictResolvedFiles : List String
  NewHashes : List GitHash
  deriving DecidableEq, Repr

/-- NewDiff3Resolver (resolvediff3.go lines 35-41).  The Go constructor
assigns only storage and the two labels; the rejection-suffix parameters are
accepted but never stored, so the struct's suffix fields keep the zero value
of the empty string. -/
def NewDiff3Resolver (sideALabel sideBLabel sideARejectionSuffix sideBRejectionSuffix : String) :
    Diff3Resolver :=
  { sideALabel := sideALabel
    sideBLabel := sideBLabel
    sideARejectionSuffix := ""
    sideBRejectionSuffix := ""
    BinaryConflictFiles := []
    NonFileConflictFiles := []
    ConflictOpenFiles := []
    ConflictResolvedFiles := []
    NewHashes := [] }

/-- The non-file branch of Diff3Resolver.Resolve (lines 85-100): record the
path as a non-file conflict and keep both sides, renamed with the rejection
suffixes. -/
def Diff3Resolver.resolveNonFile (r : Diff3Resolver) (parentPath : String)
    (entry1 entry2 : Option TreeEntry) : List TreeEntry × Diff3Resolver :=
  let r :=
    match entry1, entry2 with
    | some e1, _ =>
      { r with NonFileConflictFiles := r.NonFileConflictFiles ++ [pathJoin parentPath e1.name] }
    | none, some e2 =>
      { r with NonFileConflictFiles := r.NonFileConflictFiles ++ [pathJoin parentPath e2.name] }
    | none, none => r
  ((match entry1 with
    | some e1 => [{ e1 with name := e1.name ++ r.sideARejectionSuffix }]
    | none => []) ++
   (match entry2 with
    | some e2 => [{ e2 with name := e2.name ++ r.sideBRejectionSuffix }]
    | none => []), r)

/-- Diff3Resolver.Resolve (lines 43-101) with mergeDiff3 (lines 103-152)
inlined.  blobStore models storage.EncodedObject for blobs; diff3 models the
external engine, applied to the side-A, base and side-B contents in that
order (diff3.Merge(rd1, rdBase, rd2)).  The merged output gets a terminating
newline appended before being stored as a new blob. -/
def Diff3Resolver.Resolve (r : Diff3Resolver)
    (blobStore : GitHash → Option (List Nat))
    (diff3 : List Nat → List Nat → List Nat → Diff3Outcome)
    (parentPath : String) (entry1 entry2 entryBase : Option TreeEntry) :
    Option (List TreeEntry × Diff3Resolver) :=
  match entry1, entry2, entryBase with
  | some e1, some e2, some eb =>
    if e1.mode.isFile && e2.mode.isFile && eb.mode.isFile then
      match blobStore e1.hash, blobStore e2.hash, blobStore eb.hash with
      | some c1, some c2, some cb =>
        match diff3 c1 cb c2 with
        | .binaryContent =>
          let r := { r with
            BinaryConflictFiles := r.BinaryConflictFiles ++ [pathJoin parentPath e1.name] }
          some ([{ e1 with name := e1.name ++ r.sideARejectionSuffix },
                 { e2 with name := e2.name ++ r.sideBRejectionSuffix }], r)
        | .engineError => none
        | .merged res hasConflict =>
          let content := res ++ [10]
          let h := GitHash.blobH content
          let r := { r with NewHashes := r.NewHashes ++ [h] }
          let r :=
            if hasConflict then
              { r with ConflictOpenFiles := r.ConflictOpenFiles ++ [pathJoin parentPath e1.name] }
            else
              { r with
                ConflictResolvedFiles := r.ConflictResolvedFiles ++ [pathJoin parentPath e1.name] }
          some ([{ name := e1.name, mode := e1.mode, hash := h }], r)
      | _, _, _ => none
    else
      some (r.resolveNonFile parentPath entry1 entry2)
  | _, _, _ =>
    some (r.resolveNonFile parentPath entry1 entry2)

/-! ## Squash-cherry-pick packfile assembly (squash_cherry_pick.go) -/

/-- Keep-first de-duplication of a hash list, modelling collection through a
Go map. -/
def dedupHashes : List GitHash → List GitHash
  | [] => []
  | h :: hs => h :: (dedupHashes hs).filter (fun g => g ≠ h)

/-- The hash set packed by pushSquashCherryPick (squash_cherry_pick.go lines
416-429): the new commit hash, the merger's recorded new tree hashes and the
resolver's recorded new blob hashes, de-duplicated through a map before
packfile encoding. -/
def squashPickPackHashes (commitHash : GitHash)
    (mergeNewHashes resolverNewHashes : List GitHash) : List GitHash :=
  dedupHashes (commitHash :: (mergeNewHashes ++ resolverNewHashes))

/-! ## Backport error propagation (the backport source) -/

structure BackportCommandResult where
  commitHash : String
  conflictResolvedFiles : List String
  conflictUnresolvedFiles : List String
  deriving DecidableEq, Repr

structure BackportOutput where
  commandResults : List BackportCommandResult
  error : Option String
  deriving DecidableEq, Repr

/-- backport.push (backport source lines 253-278) with the outcomes of the
packfile encoder and of push.Push supplied as parameters: the error branch of
packEncoder.Encode executes return nil, silently swallowing the failure and
skipping the push entirely. -/
def backportPush (encodeErr : Option String) (pushErr : Option String) : Option String :=
  match encodeErr with
  | some _ => none
  | none =>
    match pushErr with
    | some e => some ("failed to push: " ++ e)
    | none => none

/-- The cherry-pick loop of backport.run (lines 120-129): every produced
command result is appended before the error check, and the loop stops at the
first error; on full success the push step runs. -/
def backportRunLoop :
    List (BackportCommandResult × Option String) → Option String → Option String →
    List BackportCommandResult × Option String
  | [], encodeErr, pushErr => ([], backportPush encodeErr pushErr)
  | (res, err) :: rest, encodeErr, pushErr =>
    match err with
    | some e => ([res], some e)
    | none =>
      let (rs, e) := backportRunLoop rest encodeErr pushErr
      (res :: rs, e)

/-- backport.run (lines 116-134) with the outcome of each pipeline step
supplied: the fetch outcome, the per-commit cherry-pick outcomes, the
packfile-encoder outcome and the push outcome. -/
def backportRun (fetchErr : Option String)
    (picks : List (BackportCommandResult × Option String))
    (encodeErr pushErr : Option String) : List BackportCommandResult × Option String :=
  match fetchErr with
  | some e => ([], some e)
  | none => backportRunLoop picks encodeErr pushErr

/-- Backport (lines 88-104): run the pipeline and wrap the accumulated
command results and the terminal error into the output record (a none error
models the empty Error field, i.e. reported success). -/
def Backport (fetchErr : Option String)
    (picks : List (BackportCommandResult × Option String))
    (encodeErr pushErr : Option String) : BackportOutput :=
  let out := backportRun fetchErr picks encodeErr pushErr
  { commandResults := out.1, error := out.2 }

/-! ## Fetch retry loop (internal/fetch/common.go, gitprotocontext/context.go) -/

/-- Outcome of callProtocolV2: success (carrying the number of attempts
made), or failure carrying the accumulated errors of all attempts
(errors.Join). -/
inductive FetchOutcome where
  | ok : Nat → FetchOutcome
  | fail : List String → FetchOutcome
  deriving DecidableEq, Repr

/-- The retry loop of callProtocolV2 (common.go lines 73-118), restructured
from the post-decrement exit test (retryCount--; if retryCount <= 0 return)
into an explicit count of remaining iterations: the Go loop runs at most
max 1 retryCount iterations, continuing after a failed attempt exactly when
the decremented counter is still positive.  attempts i gives the outcome of
the i-th attempt: none is success, some e the error of that attempt
(transport failure or parser failure). -/
def callLoopAux (attempts : Nat → Option String) : Nat → Nat → List String → FetchOutcome
  | 0, _, errs => .fail errs
  | k + 1, i, errs =>
    match attempts i with
    | none => .ok (i + 1)
    | some e =>
      if k = 0 then .fail (errs ++ [e])
      else callLoopAux attempts k (i + 1) (errs ++ [e])

def callProtocolV2 (attempts : Nat → Option String) (retryCount : Int) : FetchOutcome :=
  callLoopAux attempts (max 1 retryCount).toNat 0 []

/-- The scoped request configuration (gitprotocontext/context.go): a context
optionally carrying a fetch-retry-count value. -/
def GitProtoContext := Option Int

/-- WithGitFetchRetryCount (context.go lines 30-35): a negative count is not
stored. -/
def WithGitFetchRetryCount (ctx : GitProtoContext) (retryCount : Int) : GitProtoContext :=
  if retryCount < 0 then ctx else some retryCount

/-- GitFetchRetryCount (context.go lines 58-63): the stored value when
non-negative, else 0. -/
def GitFetchRetryCount (ctx : GitProtoContext) : Int :=
  match ctx with
  | some retryCount => if retryCount ≥ 0 then retryCount else 0
  | none => 0

/-- callProtocolV2 as entered with a context (common.go line 74). -/
def callProtocolV2WithContext (attempts : Nat → Option String) (ctx : GitProtoContext) :
    FetchOutcome :=
  callProtocolV2 attempts (GitFetchRetryCount ctx)

/-! ## Linear-rebase branch discovery (the linear-rebase source, findBranches) -/

def decodeHashList : GitHash → List GitHash
  | .hnil => []
  | .hcons h rest => h :: decodeHashList rest
  | _ => []

/-- object.GetCommit on a partial storage: present tells which objects the
fetched packfile holds; the parent hashes of a present commit are decoded
from the content-addressed hash. -/
def getCommitParents (present : GitHash → Bool) (h : GitHash) : Option (List GitHash) :=
  match h with
  | .commitH _ ps => if present h then some (decodeHashList ps) else none
  | _ => none

/-- A discovered branch: its ref, head, collected commits (newest to oldest,
starting at the head) and the head of the parent branch its walk linked to
(none when the walk reached the base commit). -/
structure BranchCommits where
  ref : String
  head : GitHash
  commits : List GitHash
  stop : Option GitHash
  deriving DecidableEq, Repr

/-- The inner walk of findBranches (findBranches lines 166-192): follow
single parents downwards; stop with a link when the parent is another branch
head, stop without one when the parent is the base commit; error when a
walked commit does not have exactly one parent or cannot be loaded.  Fueled;
the content-addressed parent chain strictly shrinks, so hsize of the start
suffices. -/
def walkBranch (present : GitHash → Bool) (heads : List GitHash) (base : GitHash) :
    Nat → GitHash → Except String (List GitHash × Option GitHash)
  | 0, _ => .error "out of fuel"
  | fuel + 1, current =>
    match getCommitParents present current with
    | none => .error "failed to get commit"
    | some parents =>
      match parents with
      | [parentHash] =>
        if heads.contains parentHash then .ok ([], some parentHash)
        else if parentHash = base then .ok ([], none)
        else
          match walkBranch present heads base fuel parentHash with
          | .error e => .error e
          | .ok (cs, stop) => .ok (parentHash :: cs, stop)
      | _ => .error "branch has multiple parents"

/-- hashToBranch is keyed by head hash, so on duplicate head hashes the later
ref wins; for distinct heads this is the identity. -/
def dedupByHeadKeepLast : List (String × GitHash) → List (String × GitHash)
  | [] => []
  | (r, h) :: rest =>
    if (rest.map (·.2)).contains h then dedupByHeadKeepLast rest
    else (r, h) :: dedupByHeadKeepLast rest

/-- Walk every branch (the outer loop of findBranches lines 166-192). -/
def walkAll (present : GitHash → Bool) (refs : List (String × GitHash)) (base : GitHash) :
    Except String (List BranchCommits) :=
  let uniq := dedupByHeadKeepLast refs
  let heads := uniq.map (·.2)
  uniq.mapM (fun rh =>
    match walkBranch present heads base (hsize rh.2 + 1) rh.2 with
    | .error e => .error e
    | .ok (cs, stop) => .ok { ref := rh.1, head := rh.2, commits := rh.2 :: cs, stop := stop })

/-- The parent/child linking check of findBranches (lines 177-183): a second
branch linking to the same parent branch triggers the multiple-children
error. -/
def checkUniqueChildren : List BranchCommits → Except String Unit
  | [] => .ok ()
  | b :: bs =>
    match b.stop with
    | some p =>
      if bs.any (fun c => c.stop == some p) then .error "branch has multiple children"
      else checkUniqueChildren bs
    | none => checkUniqueChildren bs

/-- Follow child links from the root (findBranches lines 206-210).  In Go
this chases childBranch pointers; since each parent branch has at most one
child once checkUniqueChildren passed, searching the remaining pool is
equivalent, and removing visited branches mirrors the acyclicity of the
content-addressed history. -/
def followChain : Nat → BranchCommits → List BranchCommits → List BranchCommits
  | 0, b, _ => [b]
  | fuel + 1, b, pool =>
    match pool.find? (fun c => c.stop == some b.head) with
    | none => [b]
    | some c => b :: followChain fuel c (pool.erase c)

/-- findBranches (the 2024 linear-rebase source, lines 157-212): walk every
branch, reject duplicate children, then require exactly one root branch and
order the branches from it along child links. -/
def findBranches (present : GitHash → Bool) (refs : List (String × GitHash)) (base : GitHash) :
    Except String (List BranchCommits) :=
  match walkAll present refs base with
  | .error e => .error e
  | .ok walked =>
    match checkUniqueChildren walked with
    | .error e => .error e
    | .ok () =>
      match walked.filter (fun b => b.stop == none) with
      | [] => .error "no root branches found"
      | [root] => .ok (followChain walked.length root (walked.erase root))
      | _ => .error "multiple root branches found"

/-! ## Merge-base search (the merge-base source, findMergeBases) -/

/-- A Go computation outcome distinguishing a runtime panic from a returned
error. -/
inductive GoResult (α : Type) where
  | panicked : GoResult α
  | failed : String → GoResult α
  | ok : α → GoResult α
  deriving DecidableEq, Repr

/-- findReachableCommits (merge-base source lines 207-223): BFS over parent
links, collecting visited commits; a commit that cannot be loaded is an
error.  Fueled; the Go loop is bounded by the finite visited set. -/
def findReachableCommits (present : GitHash → Bool) :
    Nat → List GitHash → List GitHash → Except String (List GitHash)
  | 0, _, _ => .error "out of fuel"
  | fuel + 1, queue, reachables =>
    match queue with
    | [] => .ok reachables
    | current :: rest =>
      if reachables.contains current then
        findReachableCommits present fuel rest reachables
      else
        match getCommitParents present current with
        | none => .error "failed to get commit"
        | some parents =>
          findReachableCommits present fuel (rest ++ parents) (reachables ++ [current])

/-- The reachability set of one start commit, with ample fuel for the
content-addressed graph. -/
def reach (present : GitHash → Bool) (start : GitHash) : Except String (List GitHash) :=
  findReachableCommits present (hsize start * hsize start + 1) [start] []

/-- The intersection loop of findMergeBases (lines 158-173): restrict the
common set to each further input's reachability set. -/
def intersectAll (present : GitHash → Bool) :
    List GitHash → List GitHash → Except String (List GitHash)
  | [], common => .ok common
  | s :: ss, common =>
    match reach present s with
    | .error e => .error e
    | .ok rs => intersectAll present ss (common.filter (fun h => rs.contains h))

/-- The pruning loop of findMergeBases (lines 175-195): for each surviving
common ancestor, delete every other element of its reachability set. -/
def pruneLoop (present : GitHash → Bool) :
    List GitHash → List GitHash → Except String (List GitHash)
  | [], common => .ok common
  | current :: rest, common =>
    if common.contains current then
      match reach present current with
      | .error e => .error e
      | .ok rs =>
        pruneLoop present rest (common.filter (fun h => h == current || !(rs.contains h)))
    else
      pruneLoop present rest common

/-- findMergeBases (merge-base source lines 152-205): seed the common set
from the first input hash — an index-out-of-range panic on an empty input —
then intersect with each further input's reachability set and prune
non-leaves.  The generation-number decoration of the output is omitted; the
output is the surviving hash list. -/
def findMergeBases (present : GitHash → Bool) (commitHashes : List GitHash) :
    GoResult (List GitHash) :=
  match commitHashes with
  | [] => .panicked
  | c0 :: rest =>
    match reach present c0 with
    | .error e => .failed e
    | .ok common0 =>
      match intersectAll present rest common0 with
      | .error e => .failed e
      | .ok common =>
        match pruneLoop present common common with
        | .error e => .failed e
        | .ok survivors => .ok survivors

/-- A resolver that never emits replacement entries, as the blob collector
does. -/
def NoOutput {σ : Type} (resolve : Resolver σ) : Prop :=
  ∀ rs p e1 e2 eb out rs', resolve rs p e1 e2 eb = some (out, rs') → out = []

/-- A recorded tree hash decodes to a canonically sorted tree whose entry
names are additionally unique whenever the resolver emits no entries. -/
def GoodTree {σ : Type} (resolve : Resolver σ) (g : GitHash) : Prop :=
  ∃ u, getTree? g = some u ∧ SortedGit u ∧
    (NoOutput resolve → (u.map (·.name)).Nodup)

/-- The concrete tree used by the C8 witness. -/
def c8t : Tree := [⟨"f", .regular, .blobH [1]⟩]

def c5wt1 : Tree := [⟨"a", .regular, .blobH [1]⟩, ⟨"f", .regular, .blobH [9]⟩]

def c5wt2 : Tree := [⟨"b", .regular, .blobH [2]⟩, ⟨"f", .regular, .blobH [9]⟩]

def c5wbase : Tree := [⟨"f", .regular, .blobH [9]⟩]

def c5wres : Tree :=
  [⟨"a", .regular, .blobH [1]⟩, ⟨"b", .regular, .blobH [2]⟩, ⟨"f", .regular, .blobH [9]⟩]

/-- The Diff3Resolver wrapped as a merger resolver (resolver.Resolve is the
function handed to MergeTree by the orchestrators). -/
def diff3Resolve (blobStore : GitHash → Option (List Nat))
    (diff3 : List Nat → List Nat → List Nat → Diff3Outcome) : Resolver Diff3Resolver :=
  fun r p e1 e2 eb => Diff3Resolver.Resolve r blobStore diff3 p e1 e2 eb

def c5x1 : Tree := [⟨"f", .regular, .blobH [0]⟩]

def c5x2 : Tree := [⟨"f", .regular, .blobH [1]⟩]

def c5xbase : Tree := [⟨"f", .regular, .blobH [2]⟩]

def c5xres : Tree := [⟨"f", .regular, .blobH [1]⟩, ⟨"f", .regular, .blobH [0]⟩]

def c4entry1 : TreeEntry := ⟨"f", .regular, .blobH [0]⟩

def c4entry2 : TreeEntry := ⟨"f", .regular, .blobH [1]⟩

def c4entryB : TreeEntry := ⟨"f", .regular, .blobH [2]⟩

/-- A blob store holding every content-addressed blob. -/
def c4blobStore : GitHash → Option (List Nat)
  | .blobH c => some c
  | _ => none

/-- A diff3 engine that reports binary content on every input. -/
def c4diff3 (_c1 _cb _c2 : List Nat) : Diff3Outcome := .binaryContent

def c3blobA : GitHash := .blobH [0]

def c3blobB : GitHash := .blobH [1]

def c3blobX : GitHash := .blobH [2]

def c3blobY : GitHash := .blobH [3]

def c3tree1 : Tree := [⟨"f", .regular, c3blobA⟩, ⟨"g", .regular, c3blobX⟩]

def c3tree2 : Tree := [⟨"f", .regular, c3blobB⟩, ⟨"g", .regular, c3blobX⟩]

def c3base : Tree := [⟨"f", .regular, c3blobA⟩, ⟨"g", .regular, c3blobY⟩]

/-- Adjacent-link check for a branch list: each branch after the first links
to the head of its predecessor (the child-link ordering of findBranches). -/
def chainLinkedB : List BranchCommits → Bool
  | [] => true
  | [_] => true
  | a :: b :: rest => (b.stop == some a.head) && chainLinkedB (b :: rest)

def c9base : GitHash := .commitH 0 .hnil

def c9h1 : GitHash := .commitH 1 (.hcons c9base .hnil)

def c9h2 : GitHash := .commitH 2 (.hcons c9h1 .hnil)

def c9refs : List (String × GitHash) :=
  [("refs/heads/b1", c9h1), ("refs/heads/b2", c9h2)]

def c9present : GitHash → Bool := fun _ => true

/-! ## Theorems -/

theorem getTree?_encodeTree (t : Tree) : getTree? (encodeTree t) = some t := by
  induction t with
  | nil => rfl
  | cons e es ih => simp [encodeTree, getTree?, ih]

theorem encodeTree_injective : Function.Injective encodeTree := by
  intro a b h
  have := congrArg getTree? h
  rw [getTree?_encodeTree, getTree?_encodeTree] at this
  exact Option.some.injEq _ _ ▸ this

/-! ## Helper lemmas -/

theorem hasChange_eq_specChanged (x y : Option TreeEntry) : hasChange x y = specChanged x y := by
  cases x <;> cases y <;> rfl

theorem mem_dedupHashes (l : List GitHash) (h : GitHash) : h ∈ dedupHashes l ↔ h ∈ l := by
  induction l with
  | nil => simp [dedupHashes]
  | cons a as ih =>
    simp only [dedupHashes, List.mem_cons, List.mem_filter, ih]
    by_cases hha : h = a
    · subst hha; simp
    · simp [hha]

theorem nodup_dedupHashes (l : List GitHash) : (dedupHashes l).Nodup := by
  induction l with
  | nil => simp [dedupHashes]
  | cons a as ih =>
    simp only [dedupHashes]
    refine List.Nodup.cons ?_ (ih.filter _)
    intro hmem
    have := (List.mem_filter.mp hmem).2
    simp at this

theorem charListLt_asymm : ∀ a b : List Char, charListLt a b = true → charListLt b a = false := by
  intro a
  induction a with
  | nil =>
    intro b h
    cases b with
    | nil => simp [charListLt] at h
    | cons y ys => simp [charListLt]
  | cons x xs ih =>
    intro b h
    cases b with
    | nil => simp [charListLt] at h
    | cons y ys =>
      simp only [charListLt] at h ⊢
      by_cases hxy : x.toNat < y.toNat
      · have hyx : ¬ y.toNat < x.toNat := by omega
        simp [hxy, hyx]
      · by_cases hyx : y.toNat < x.toNat
        · simp [hxy, hyx] at h
        · simp only [hxy, hyx, if_false] at h ⊢
          exact ih ys h

theorem insertEntry_head? (e : TreeEntry) (l : List TreeEntry) :
    (insertEntry e l).head? = some e ∨ (insertEntry e l).head? = l.head? := by
  cases l with
  | nil => left; rfl
  | cons x xs =>
    simp only [insertEntry]
    by_cases hc : strLt (sortKey e) (sortKey x) = true
    · left; rw [if_pos hc]; rfl
    · right; rw [if_neg hc]; rfl

theorem sortedGit_insertEntry (e : TreeEntry) (l : List TreeEntry) (h : SortedGit l) :
    SortedGit (insertEntry e l) := by
  induction l with
  | nil => simp [insertEntry, SortedGit]
  | cons x xs ih =>
    simp only [insertEntry]
    by_cases hc : strLt (sortKey e) (sortKey x) = true
    · rw [if_pos hc]
      exact List.chain'_cons.mpr ⟨charListLt_asymm _ _ hc, h⟩
    · rw [if_neg hc]
      have hx : SortedGit xs := (List.chain'_cons'.mp h).2
      refine List.chain'_cons'.mpr ⟨?_, ih hx⟩
      intro y hy
      rcases insertEntry_head? e xs with h1 | h1
      · rw [h1] at hy
        have hye : e = y := by simpa using hy
        subst hye
        simpa using hc
      · rw [h1] at hy
        exact (List.chain'_cons'.mp h).1 y hy

theorem sortedGit_sortEntries (l : List TreeEntry) : SortedGit (sortEntries l) := by
  induction l with
  | nil => simp [sortEntries, SortedGit]
  | cons e es ih => exact sortedGit_insertEntry e _ ih

theorem insertEntry_perm (e : TreeEntry) (l : List TreeEntry) :
    (insertEntry e l).Perm (e :: l) := by
  induction l with
  | nil => exact List.Perm.refl _
  | cons x xs ih =>
    simp only [insertEntry]
    by_cases hc : strLt (sortKey e) (sortKey x) = true
    · rw [if_pos hc]
    · rw [if_neg hc]
      exact (ih.cons x).trans (List.Perm.swap e x xs)

theorem sortEntries_perm (l : List TreeEntry) : (sortEntries l).Perm l := by
  induction l with
  | nil => exact List.Perm.refl _
  | cons e es ih => exact (insertEntry_perm e _).trans (ih.cons e)

theorem mapLookup_name (t : Tree) (n : String) (e : TreeEntry)
    (h : mapLookup t n = some e) : e.name = n := by
  induction t with
  | nil => simp [mapLookup] at h
  | cons x xs ih =>
    simp only [mapLookup] at h
    rcases hx : mapLookup xs n with _ | r
    · rw [hx] at h
      by_cases hn : (x.name == n) = true
      · rw [if_pos hn] at h
        cases h
        exact beq_iff_eq.mp hn
      · rw [if_neg hn] at h
        cases h
    · rw [hx] at h
      cases h
      exact ih hx

theorem nodup_dedupFirst (l : List String) : (dedupFirst l).Nodup := by
  induction l with
  | nil => simp [dedupFirst]
  | cons n ns ih =>
    simp only [dedupFirst]
    refine List.Nodup.cons ?_ (ih.filter _)
    intro hmem
    have := (List.mem_filter.mp hmem).2
    simp at this

theorem nodup_collectNames (t1 t2 : Tree) (base? : Option Tree) :
    (collectNames t1 t2 base?).Nodup := nodup_dedupFirst _

theorem mergeLoop_invariant {σ : Type} (resolve : Resolver σ) :
    ∀ (fuel : Nat) (pth : String) (t1 t2 : Tree) (base? : Option Tree) (names : List String)
      (st : MergeState) (rs : σ) (es : List TreeEntry) (st' : MergeState) (rs' : σ),
      mergeLoop resolve fuel pth t1 t2 base? names st rs = some (es, st', rs') →
      ((NoOutput resolve → (es.map (·.name)).Sublist names) ∧
       ∀ g ∈ st'.newHashes, g ∈ st.newHashes ∨ GoodTree resolve g) := by
  intro fuel
  induction fuel with
  | zero =>
    intro pth t1 t2 base? names st rs es st' rs' h
    simp [mergeLoop] at h
  | succ fuel ih =>
    intro pth t1 t2 base? names st rs es st' rs' h
    cases names with
    | nil =>
      simp only [mergeLoop, Option.some.injEq, Prod.mk.injEq] at h
      obtain ⟨rfl, rfl, rfl⟩ := h
      exact ⟨fun _ => by simp, fun g hg => Or.inl hg⟩
    | cons n ns =>
      rcases hct : checkConflictType (mapLookup t1 n) (mapLookup t2 n)
          (base?.bind fun b => mapLookup b n) with _ | _ | _ | _ | _
      · -- noChange
        simp only [mergeLoop, hct] at h
        rcases hB : base?.bind (fun b => mapLookup b n) with _ | eb
        · simp [hB] at h
        · simp only [hB] at h
          rcases hrec : mergeLoop resolve fuel pth t1 t2 base? ns st rs with _ | ⟨es1, st1, rs1⟩
          · simp [hrec] at h
          · simp only [hrec, Option.some.injEq, Prod.mk.injEq] at h
            obtain ⟨rfl, rfl, rfl⟩ := h
            obtain ⟨hsub, hnew⟩ := ih _ _ _ _ _ _ _ _ _ _ hrec
            refine ⟨?_, hnew⟩
            intro hres
            have hebn : eb.name = n := by
              rcases Option.bind_eq_some.mp hB with ⟨b, _, hb2⟩
              exact mapLookup_name b n eb hb2
            simpa [hebn] using List.Sublist.cons₂ n (hsub hres)
      · -- takeChange1
        simp only [mergeLoop, hct] at h
        rcases hrec : mergeLoop resolve fuel pth t1 t2 base? ns
            { st with filesPickedEntry1 := st.filesPickedEntry1 ++ [pathJoin pth n] } rs
            with _ | ⟨es1, st1, rs1⟩
        · simp [hrec] at h
        · simp only [hrec, Option.some.injEq, Prod.mk.injEq] at h
          obtain ⟨rfl, rfl, rfl⟩ := h
          obtain ⟨hsub, hnew⟩ := ih _ _ _ _ _ _ _ _ _ _ hrec
          refine ⟨?_, hnew⟩
          intro hres
          rcases he : mapLookup t1 n with _ | e
          · simpa [he] using List.Sublist.cons n (hsub hres)
          · simpa [he, mapLookup_name t1 n e he] using List.Sublist.cons₂ n (hsub hres)
      · -- takeChange2
        simp only [mergeLoop, hct] at h
        rcases hrec : mergeLoop resolve fuel pth t1 t2 base? ns
            { st with filesPickedEntry2 := st.filesPickedEntry2 ++ [pathJoin pth n] } rs
            with _ | ⟨es1, st1, rs1⟩
        · simp [hrec] at h
        · simp only [hrec, Option.some.injEq, Prod.mk.injEq] at h
          obtain ⟨rfl, rfl, rfl⟩ := h
          obtain ⟨hsub, hnew⟩ := ih _ _ _ _ _ _ _ _ _ _ hrec
          refine ⟨?_, hnew⟩
          intro hres
          rcases he : mapLookup t2 n with _ | e
          · simpa [he] using List.Sublist.cons n (hsub hres)
          · simpa [he, mapLookup_name t2 n e he] using List.Sublist.cons₂ n (hsub hres)
      · -- sameChange
        simp only [mergeLoop, hct] at h
        rcases hrec : mergeLoop resolve fuel pth t1 t2 base? ns
            { st with filesPickedEntry12 := st.filesPickedEntry12 ++ [pathJoin pth n] } rs
            with _ | ⟨es1, st1, rs1⟩
        · simp [hrec] at h
        · simp only [hrec, Option.some.injEq, Prod.mk.injEq] at h
          obtain ⟨rfl, rfl, rfl⟩ := h
          obtain ⟨hsub, hnew⟩ := ih _ _ _ _ _ _ _ _ _ _ hrec
          refine ⟨?_, hnew⟩
          intro hres
          rcases he : mapLookup t1 n with _ | e
          · simpa [he] using List.Sublist.cons n (hsub hres)
          · simpa [he, mapLookup_name t1 n e he] using List.Sublist.cons₂ n (hsub hres)
      · -- conflict
        simp only [mergeLoop, hct] at h
        rcases he1 : mapLookup t1 n with _ | e1
        · -- entry1 absent: resolver path
          simp only [he1] at h
          rcases hresv : resolve rs pth none (mapLookup t2 n) (base?.bind fun b => mapLookup b n)
              with _ | ⟨out, rsA⟩
          · simp [hresv] at h
          · simp only [hresv] at h
            rcases hrec : mergeLoop resolve fuel pth t1 t2 base? ns
                { st with filesConflict := st.filesConflict ++ [pathJoin pth n] } rsA
                with _ | ⟨es1, st1, rs1⟩
            · simp [hrec] at h
            · simp only [hrec, Option.some.injEq, Prod.mk.injEq] at h
              obtain ⟨rfl, rfl, rfl⟩ := h
              obtain ⟨hsub, hnew⟩ := ih _ _ _ _ _ _ _ _ _ _ hrec
              refine ⟨?_, hnew⟩
              intro hres
              have hout : out = [] := hres _ _ _ _ _ _ _ hresv
              subst hout
              simpa using List.Sublist.cons n (hsub hres)
        · rcases he2 : mapLookup t2 n with _ | e2
          · -- entry2 absent: resolver path
            simp only [he1, he2] at h
            rcases hresv : resolve rs pth (some e1) none (base?.bind fun b => mapLookup b n)
                with _ | ⟨out, rsA⟩
            · simp [hresv] at h
            · simp only [hresv] at h
              rcases hrec : mergeLoop resolve fuel pth t1 t2 base? ns
                  { st with filesConflict := st.filesConflict ++ [pathJoin pth n] } rsA
                  with _ | ⟨es1, st1, rs1⟩
              · simp [hrec] at h
              · simp only [hrec, Option.some.injEq, Prod.mk.injEq] at h
                obtain ⟨rfl, rfl, rfl⟩ := h
                obtain ⟨hsub, hnew⟩ := ih _ _ _ _ _ _ _ _ _ _ hrec
                refine ⟨?_, hnew⟩
                intro hres
                have hout : out = [] := hres _ _ _ _ _ _ _ hresv
                subst hout
                simpa using List.Sublist.cons n (hsub hres)
          · -- both entries present
            simp only [he1, he2] at h
            by_cases hdd : e1.mode = Mode.dir ∧ e2.mode = Mode.dir
            · rw [if_pos hdd] at h
              rcases hg1 : getTree? e1.hash with _ | sub1
              · simp [hg1] at h
              · rcases hg2 : getTree? e2.hash with _ | sub2
                · simp [hg1, hg2] at h
                · simp only [hg1, hg2] at h
                  rcases hSB : (match base?.bind (fun b => mapLookup b n) with
                      | some ebe =>
                        if ebe.mode = Mode.dir then (getTree? ebe.hash).map some else some none
                      | none => some none) with _ | subBase?
                  · simp [hSB] at h
                  · simp only [hSB] at h
                    rcases hsubm : mergeLoop resolve fuel (pathJoin pth n) sub1 sub2 subBase?
                        (collectNames sub1 sub2 subBase?) st rs with _ | ⟨subEntries, stA, rsA⟩
                    · simp [hsubm] at h
                    · simp only [hsubm] at h
                      rcases hrest : mergeLoop resolve fuel pth t1 t2 base? ns
                          { stA with newHashes :=
                              stA.newHashes ++ [encodeTree (sortEntries subEntries)] } rsA
                          with _ | ⟨es1, st1, rs1⟩
                      · simp [hrest] at h
                      · simp only [hrest, Option.some.injEq, Prod.mk.injEq] at h
                        obtain ⟨rfl, rfl, rfl⟩ := h
                        obtain ⟨hsubS, hsubN⟩ := ih _ _ _ _ _ _ _ _ _ _ hsubm
                        obtain ⟨hrS, hrN⟩ := ih _ _ _ _ _ _ _ _ _ _ hrest
                        constructor
                        · intro hres
                          simpa using List.Sublist.cons₂ n (hrS hres)
                        · intro g hg
                          rcases hrN g hg with hg1' | hgood
                          · have hg2' : g ∈ stA.newHashes ++
                                [encodeTree (sortEntries subEntries)] := hg1'
                            rcases List.mem_append.mp hg2' with hgA | hgH
                            · exact hsubN g hgA
                            · have hgh : g = encodeTree (sortEntries subEntries) := by
                                simpa using hgH
                              subst hgh
                              refine Or.inr ⟨sortEntries subEntries, getTree?_encodeTree _,
                                sortedGit_sortEntries _, ?_⟩
                              intro hres
                              have h1 : (subEntries.map (·.name)).Sublist
                                  (collectNames sub1 sub2 subBase?) := hsubS hres
                              have h2 : (subEntries.map (·.name)).Nodup :=
                                (nodup_collectNames sub1 sub2 subBase?).sublist h1
                              exact (((sortEntries_perm subEntries).map (·.name)).nodup_iff).mpr h2
                          · exact Or.inr hgood
            · rw [if_neg hdd] at h
              rcases hresv : resolve rs pth (some e1) (some e2)
                  (base?.bind fun b => mapLookup b n) with _ | ⟨out, rsA⟩
              · simp [hresv] at h
              · simp only [hresv] at h
                rcases hrec : mergeLoop resolve fuel pth t1 t2 base? ns
                    { st with filesConflict := st.filesConflict ++ [pathJoin pth n] } rsA
                    with _ | ⟨es1, st1, rs1⟩
                · simp [hrec] at h
                · simp only [hrec, Option.some.injEq, Prod.mk.injEq] at h
                  obtain ⟨rfl, rfl, rfl⟩ := h
                  obtain ⟨hsub, hnew⟩ := ih _ _ _ _ _ _ _ _ _ _ hrec
                  refine ⟨?_, hnew⟩
                  intro hres
                  have hout : out = [] := hres _ _ _ _ _ _ _ hresv
                  subst hout
                  simpa using List.Sublist.cons n (hsub hres)

/-! ## Claim theorems -/

/-- C1: every receive-pack request built by Push carries the atomic
capability, and each command's old field is the caller-supplied expected old
hash when present, else the hash the server advertised for that ref name,
else the zero hash. -/
theorem c1_push_request_atomic_and_old_selection
    (baseCaps : List String) (advRefs : List (String × GitHash)) (updates : List RefUpdate) :
    "atomic" ∈ (buildPushRequest baseCaps advRefs updates).capabilities ∧
    (buildPushRequest baseCaps advRefs updates).commands =
      updates.map (fun u =>
        { name := u.name
          new := u.newHash
          old :=
            match u.oldHash with
            | some h => h
            | none =>
              match lookupRef advRefs u.name with
              | some h => h
              | none => .zeroH }) := by
  constructor
  · show "atomic" ∈ addCapability baseCaps "atomic"
    unfold addCapability
    split
    · next hcon => exact List.mem_of_elem_eq_true hcon
    · exact List.mem_append_right _ (List.mem_singleton.mpr rfl)
  · rfl

/-- C2: for optional entries that agree on one name, the merger's
checkConflictType matches the spec's three-way classification table with the
spec's changed predicate: no-change when neither side changed, take-a when
only side a changed, take-b when only side b changed, same-change when both
changed equally, conflict otherwise. -/
theorem c2_conflict_classification (n : String) (e1 e2 eb : Option TreeEntry)
    (h1 : ∀ e, e1 = some e → e.name = n) (h2 : ∀ e, e2 = some e → e.name = n) :
    checkConflictType e1 e2 eb = specClassify e1 e2 eb := by
  have hkey : (!(hasChange e1 e2)) = (e1 == e2) := by
    cases e1 with
    | none => cases e2 with
      | none => rfl
      | some b => rfl
    | some a =>
      cases e2 with
      | none => rfl
      | some b =>
        have ha : a.name = n := h1 a rfl
        have hb : b.name = n := h2 b rfl
        obtain ⟨an, am, ah⟩ := a
        obtain ⟨bn, bm, bh⟩ := b
        simp only at ha hb
        subst ha; subst hb
        by_cases hm : am = bm
        · subst hm
          by_cases hh : ah = bh
          · subst hh; simp [hasChange]
          · have hx : (ah == bh) = false := beq_eq_false_iff_ne.mpr hh
            have hy : ((⟨bn, am, ah⟩ : TreeEntry) == ⟨bn, am, bh⟩) = false :=
              beq_eq_false_iff_ne.mpr (by simp [TreeEntry.mk.injEq, hh])
            simp [hasChange, hx, hy]
        · have hx : (am == bm) = false := beq_eq_false_iff_ne.mpr hm
          have hy : ((⟨bn, am, ah⟩ : TreeEntry) == ⟨bn, bm, bh⟩) = false :=
            beq_eq_false_iff_ne.mpr (by simp [TreeEntry.mk.injEq, hm])
          simp [hasChange, hx, hy]
  simp only [checkConflictType, specClassify,
    hasChange_eq_specChanged e1 eb, hasChange_eq_specChanged e2 eb, hkey]

/-- C8: the merger's short circuits follow the spec's table — when side a
equals the base the merge returns side b's hash, when side b equals the base
it returns side a's hash, when the sides agree it returns their common hash —
and no new object is created and the resolver is never consulted in any
short-circuit case.  Merging (T, T, T) is an instance of each case. -/
theorem c8_merge_short_circuits {σ : Type} (resolve : Resolver σ) (fuel : Nat)
    (ta tb tbase : Tree) (st : MergeState) (rs : σ) :
    (ta = tbase → MergeF resolve fuel ta tb (some tbase) st rs = some (encodeTree tb, st, rs)) ∧
    (tb = tbase → MergeF resolve fuel ta tb (some tbase) st rs = some (encodeTree ta, st, rs)) ∧
    (ta = tb → MergeF resolve fuel ta tb (some tbase) st rs = some (encodeTree ta, st, rs)) := by
  refine ⟨?_, ?_, ?_⟩
  · rintro rfl
    by_cases h : encodeTree tb = encodeTree ta <;> simp [MergeF, h]
  · rintro rfl
    by_cases h : encodeTree ta = encodeTree tb <;> simp [MergeF, h]
  · rintro rfl
    by_cases h : encodeTree ta = encodeTree tbase <;> simp [MergeF, h]

/-- C8 witness: merging (T, T, T) returns T's hash with no new objects. -/
theorem c8_merge_short_circuits_witness :
    MergeTree conflictBlobCollector c8t c8t (some c8t) [] =
      some (encodeTree c8t, MergeState.init, []) :=
  (c8_merge_short_circuits conflictBlobCollector (mergeFuel c8t c8t (some c8t))
    c8t c8t c8t MergeState.init []).2.2 rfl

/-- C10: findMergeBases reads the first element of the input unconditionally,
so the empty input aborts with an index-out-of-range panic rather than a
returned error, while every non-empty input runs the intersection and pruning
loops to a returned value or error — never a panic. -/
theorem c10_merge_base_empty_input_panics (present : GitHash → Bool) :
    findMergeBases present [] = .panicked ∧
    ∀ (c : GitHash) (cs : List GitHash), findMergeBases present (c :: cs) ≠ .panicked := by
  refine ⟨rfl, ?_⟩
  intro c cs
  unfold findMergeBases
  rcases hr : reach present c with e | common0
  · simp [hr]
  · rcases hi : intersectAll present cs common0 with e | common
    · simp [hr, hi]
    · rcases hp : pruneLoop present common common with e | survivors <;> simp [hr, hi, hp]

theorem mergeInternalF_newHashes {σ : Type} (resolve : Resolver σ) (fuel : Nat) (pth : String)
    (t1 t2 : Tree) (base? : Option Tree) (st : MergeState) (rs : σ)
    (hret : GitHash) (st' : MergeState) (rs' : σ)
    (h : mergeInternalF resolve fuel pth t1 t2 base? st rs = some (hret, st', rs')) :
    ∀ g ∈ st'.newHashes, g ∈ st.newHashes ∨ GoodTree resolve g := by
  unfold mergeInternalF at h
  rcases hm : mergeLoop resolve fuel pth t1 t2 base? (collectNames t1 t2 base?) st rs
      with _ | ⟨entries, stA, rsA⟩
  · simp [hm] at h
  · simp only [hm, Option.some.injEq, Prod.mk.injEq] at h
    obtain ⟨rfl, rfl, rfl⟩ := h
    obtain ⟨hS, hN⟩ := mergeLoop_invariant resolve fuel pth t1 t2 base? _ st rs _ _ _ hm
    intro g hg
    have hg' : g ∈ stA.newHashes ++ [encodeTree (sortEntries entries)] := hg
    rcases List.mem_append.mp hg' with hgA | hgH
    · exact hN g hgA
    · have hgh : g = encodeTree (sortEntries entries) := by simpa using hgH
      subst hgh
      refine Or.inr ⟨sortEntries entries, getTree?_encodeTree _, sortedGit_sortEntries _, ?_⟩
      intro hres
      have h2 : (entries.map (·.name)).Nodup :=
        (nodup_collectNames t1 t2 base?).sublist (hS hres)
      exact (((sortEntries_perm entries).map (·.name)).nodup_iff).mpr h2

theorem MergeF_newHashes {σ : Type} (resolve : Resolver σ) (fuel : Nat)
    (t1 t2 : Tree) (base? : Option Tree) (st : MergeState) (rs : σ)
    (hret : GitHash) (st' : MergeState) (rs' : σ)
    (h : MergeF resolve fuel t1 t2 base? st rs = some (hret, st', rs')) :
    ∀ g ∈ st'.newHashes, g ∈ st.newHashes ∨ GoodTree resolve g := by
  unfold MergeF at h
  rcases hsc : (match base? with
      | some mergeBase =>
        if encodeTree t1 ≠ encodeTree mergeBase ∧ encodeTree t2 = encodeTree mergeBase then
          some (encodeTree t1)
        else if encodeTree t1 = encodeTree mergeBase ∧ encodeTree t2 ≠ encodeTree mergeBase then
          some (encodeTree t2)
        else if encodeTree t1 = encodeTree mergeBase ∧ encodeTree t2 = encodeTree mergeBase then
          some (encodeTree mergeBase)
        else none
      | none => none) with _ | hh
  · simp only [hsc] at h
    by_cases heq : encodeTree t1 = encodeTree t2
    · rw [if_pos heq] at h
      simp only [Option.some.injEq, Prod.mk.injEq] at h
      obtain ⟨rfl, rfl, rfl⟩ := h
      exact fun g hg => Or.inl hg
    · rw [if_neg heq] at h
      exact mergeInternalF_newHashes resolve fuel "" t1 t2 base? st rs hret st' rs' h
  · simp only [hsc, Option.some.injEq, Prod.mk.injEq] at h
    obtain ⟨rfl, rfl, rfl⟩ := h
    exact fun g hg => Or.inl hg

/-- C5 amended: every tree object stored by the tree merger is encoded in
canonical git tree-entry order, and its entries additionally have pairwise
distinct names whenever the conflict resolver emits no replacement entries
(as the blob collector does).  With an entry-emitting resolver the names can
collide — see the counterexample, where the diff3 resolver's suffix-free
renaming duplicates a name.  Determinism is inherent in the functional
embedding: identical inputs give identical output hashes. -/
theorem c5_merge_trees_sorted {σ : Type} (resolve : Resolver σ) (t1 t2 : Tree)
    (base? : Option Tree) (rs : σ) (hret : GitHash) (st' : MergeState) (rs' : σ)
    (hrun : MergeTree resolve t1 t2 base? rs = some (hret, st', rs')) :
    ∀ g ∈ st'.newHashes, ∃ u, getTree? g = some u ∧ SortedGit u ∧
      (NoOutput resolve → (u.map (·.name)).Nodup) := by
  intro g hg
  rcases MergeF_newHashes resolve (mergeFuel t1 t2 base?) t1 t2 base? MergeState.init rs
      hret st' rs' hrun g hg with h1 | h2
  · simp [MergeState.init] at h1
  · exact h2

/-- C5 witness: a concrete collector-resolved merge whose one produced tree
is sorted with unique names. -/
theorem c5_merge_trees_sorted_witness :
    ∃ u, getTree? (encodeTree c5wres) = some u ∧ SortedGit u ∧
      (NoOutput conflictBlobCollector → (u.map (·.name)).Nodup) :=
  c5_merge_trees_sorted conflictBlobCollector c5wt1 c5wt2 (some c5wbase) []
    (encodeTree c5wres)
    { MergeState.init with
        filesPickedEntry1 := ["a"], filesPickedEntry2 := ["b"]
        newHashes := [encodeTree c5wres] } [] rfl
    (encodeTree c5wres) (List.mem_cons_self _ _)

theorem c5x_eval :
    MergeTree (diff3Resolve c4blobStore c4diff3) c5x1 c5x2 (some c5xbase)
        (NewDiff3Resolver "A" "B" ".rej" ".rej2") =
      some (encodeTree c5xres,
        ⟨[], [], [], ["f"], [encodeTree c5xres]⟩,
        { sideALabel := "A", sideBLabel := "B"
          sideARejectionSuffix := "", sideBRejectionSuffix := ""
          BinaryConflictFiles := ["f"], NonFileConflictFiles := []
          ConflictOpenFiles := [], ConflictResolvedFiles := [], NewHashes := [] }) := by
  decide

/-- C5 counterexample: a binary file conflict resolved by the diff3 resolver
keeps both sides under the same name (the rejection suffixes are empty), so
the merger stores a tree holding two entries named "f" — refuting the claim
that every produced tree has unique entry names. -/
theorem c5_counterexample :
    MergeTree (diff3Resolve c4blobStore c4diff3) c5x1 c5x2 (some c5xbase)
        (NewDiff3Resolver "A" "B" ".rej" ".rej2") =
      some (encodeTree c5xres,
        ⟨[], [], [], ["f"], [encodeTree c5xres]⟩,
        { sideALabel := "A", sideBLabel := "B"
          sideARejectionSuffix := "", sideBRejectionSuffix := ""
          BinaryConflictFiles := ["f"], NonFileConflictFiles := []
          ConflictOpenFiles := [], ConflictResolvedFiles := [], NewHashes := [] }) ∧
    ¬ (c5xres.map (·.name)).Nodup :=
  ⟨c5x_eval, by decide⟩

/-- C7 counterexample: with the scoped retry count configured to 1 and every
attempt failing, the loop makes a single attempt and returns a single
accumulated error — not the two attempts (N + 1 with N = 1) stated by the
claim. -/
theorem c7_counterexample :
    callProtocolV2WithContext (fun i => some (toString i)) (WithGitFetchRetryCount none 1) =
      .fail ["0"] ∧
    FetchOutcome.fail ["0"] ≠ FetchOutcome.fail ["0", "1"] :=
  ⟨rfl, by decide⟩

theorem callLoopAux_persistent_failure (attempts : Nat → Option String) (errf : Nat → String)
    (hfail : ∀ i, attempts i = some (errf i)) :
    ∀ (k i : Nat) (errs : List String), 1 ≤ k →
      callLoopAux attempts k i errs = .fail (errs ++ (List.range' i k).map errf) := by
  intro k
  induction k with
  | zero => intro i errs h; omega
  | succ k ih =>
    intro i errs _
    simp only [callLoopAux, hfail i]
    by_cases hk : k = 0
    · subst hk; simp [List.range']
    · have h1k : 1 ≤ k := Nat.one_le_iff_ne_zero.mpr hk
      simp only [hk, if_false, ih (i + 1) (errs ++ [errf i]) h1k]
      simp [List.range'_succ]

/-- C7 amended: with the scoped fetch-retry-count N (default 0 when the value
is absent or negative), persistent failure makes exactly max 1 N attempts —
so N = 0 and N = 1 both give a single attempt, and N ≥ 1 gives N attempts
rather than N + 1 — and the final failure joins the errors of all attempts in
order. -/
theorem c7_retry_attempts (attempts : Nat → Option String) (errf : Nat → String)
    (ctx : GitProtoContext) (hfail : ∀ i, attempts i = some (errf i)) :
    callProtocolV2WithContext attempts ctx =
      .fail ((List.range (max 1 (GitFetchRetryCount ctx)).toNat).map errf) ∧
    GitFetchRetryCount none = 0 ∧
    (∀ n : Int, n < 0 → GitFetchRetryCount (WithGitFetchRetryCount none n) = 0) := by
  refine ⟨?_, rfl, ?_⟩
  · have hk : 1 ≤ (max 1 (GitFetchRetryCount ctx)).toNat := by
      have : (1 : Int) ≤ max 1 (GitFetchRetryCount ctx) := le_max_left _ _
      omega
    unfold callProtocolV2WithContext callProtocolV2
    rw [callLoopAux_persistent_failure attempts errf hfail _ 0 [] hk]
    simp [List.range_eq_range']
  · intro n hn
    simp [WithGitFetchRetryCount, GitFetchRetryCount, hn]

/-- C7 witness for the amended theorem: retry count 2, both attempts fail. -/
theorem c7_retry_attempts_witness :
    callProtocolV2WithContext (fun i => some (toString i)) (some 2) = .fail ["0", "1"] := by
  have h := (c7_retry_attempts (fun i => some (toString i)) (fun i => toString i)
    (some 2) (fun i => rfl)).1
  simpa using h

/-- C6: evaluation at the failing input — a backport that reaches the push
step with a failing packfile encoder.  backport.push returns nil on the
encoder error, so Backport reports success with an empty error even though a
pipeline step failed and the push never ran, contradicting the claim (and the
surrounding code, which wraps and returns every other error). -/
theorem c6_backport_encode_error_swallowed :
    Backport none [] (some "failed to create a packfile") none =
      { commandResults := [], error := none } ∧
    backportPush (some "failed to create a packfile") none = none :=
  ⟨rfl, rfl⟩

/-- C4: evaluation at the failing input — a binary file-file-file conflict
handled by a Diff3Resolver constructed with rejection suffixes ".rej" and
".rej2".  The constructor discards the suffix arguments, so both returned
entries keep the unsuffixed name "f" instead of "f.rej" and "f.rej2" as the
claim states; the path is recorded in the binary-conflict list as claimed. -/
theorem c4_binary_suffixes_dropped :
    (NewDiff3Resolver "Cherry-pick content" "Base content" ".rej" ".rej2").Resolve
        c4blobStore c4diff3 "" (some c4entry1) (some c4entry2) (some c4entryB) =
      some ([⟨"f", .regular, .blobH [0]⟩, ⟨"f", .regular, .blobH [1]⟩],
        { NewDiff3Resolver "Cherry-pick content" "Base content" ".rej" ".rej2" with
            BinaryConflictFiles := ["f"] }) ∧
    ("f" : String) ≠ "f.rej" :=
  ⟨rfl, by decide⟩

/-- C3 counterexample: a merge whose per-entry picks reproduce side-2's tree
exactly (take-b on "f", same-change on "g").  The merger re-encodes and
records that tree among its new hashes, so the pushed pack-hash set contains
the hash of tree 2 — an object that already existed on the remote, being an
input tree fetched from it — refuting the claim that no pre-existing object
is packed. -/
theorem c3_counterexample :
    MergeTree conflictBlobCollector c3tree1 c3tree2 (some c3base) [] =
      some (encodeTree c3tree2,
        { MergeState.init with
            filesPickedEntry2 := ["f"]
            filesPickedEntry12 := ["g"]
            newHashes := [encodeTree c3tree2] }, []) ∧
    encodeTree c3tree2 ∈
      squashPickPackHashes (GitHash.commitH 0 .hnil) [encodeTree c3tree2] [] :=
  ⟨rfl, by decide⟩

/-- C3 amended: the set of hashes handed to the packfile encoder by
pushSquashCherryPick is exactly the de-duplicated union of the new commit
hash, the merger's recorded new hashes and the resolver's recorded new
hashes; by the counterexample those recorded hashes can include objects that
already existed on the remote when re-encoded content coincides with a
fetched object. -/
theorem c3_pack_hash_set (commitHash : GitHash)
    (mergeNewHashes resolverNewHashes : List GitHash) :
    (∀ h, h ∈ squashPickPackHashes commitHash mergeNewHashes resolverNewHashes ↔
      (h = commitHash ∨ h ∈ mergeNewHashes ∨ h ∈ resolverNewHashes)) ∧
    (squashPickPackHashes commitHash mergeNewHashes resolverNewHashes).Nodup := by
  constructor
  · intro h
    simp [squashPickPackHashes, mem_dedupHashes]
  · exact nodup_dedupHashes _

/-- C10 witness: the two findMergeBases behaviours at concrete inputs — the
empty list panics, a singleton list does not. -/
theorem c10_merge_base_empty_input_panics_witness :
    findMergeBases (fun _ => true) [] = .panicked ∧
    findMergeBases (fun _ => true) (GitHash.commitH 0 .hnil :: []) ≠ .panicked :=
  ⟨(c10_merge_base_empty_input_panics (fun _ => true)).1,
   (c10_merge_base_empty_input_panics (fun _ => true)).2 (GitHash.commitH 0 .hnil) []⟩

/-- C2 witness: the classification at a concrete conflicting triple. -/
theorem c2_conflict_classification_witness :
    checkConflictType (some ⟨"f", .regular, .blobH [0]⟩) (some ⟨"f", .regular, .blobH [1]⟩)
        (some ⟨"f", .regular, .blobH [2]⟩) =
      specClassify (some ⟨"f", .regular, .blobH [0]⟩) (some ⟨"f", .regular, .blobH [1]⟩)
        (some ⟨"f", .regular, .blobH [2]⟩) :=
  c2_conflict_classification "f" _ _ (some ⟨"f", .regular, .blobH [2]⟩)
    (fun e he => by cases he; rfl) (fun e he => by cases he; rfl)

theorem walkBranch_commits (present : GitHash → Bool) (heads : List GitHash) (base : GitHash) :
    ∀ (fuel : Nat) (start : GitHash) (cs : List GitHash) (stop : Option GitHash),
      walkBranch present heads base fuel start = .ok (cs, stop) →
      ∀ c ∈ start :: cs, ∃ p, getCommitParents present c = some [p] := by
  intro fuel
  induction fuel with
  | zero =>
    intro start cs stop h
    simp [walkBranch] at h
  | succ fuel ih =>
    intro start cs stop h
    simp only [walkBranch] at h
    rcases hp : getCommitParents present start with _ | parents
    · simp [hp] at h
    · simp only [hp] at h
      rcases parents with _ | ⟨p, ptail⟩
      · simp at h
      · rcases ptail with _ | ⟨q, qtail⟩
        · by_cases hh : heads.contains p
          · simp only [hh, if_true] at h
            obtain ⟨rfl, rfl⟩ : ([] : List GitHash) = cs ∧ some p = stop := by
              simpa using h
            intro c hc
            have hcs : c = start := by simpa using hc
            subst hcs
            exact ⟨p, hp⟩
          · simp only [hh, if_false] at h
            by_cases hb : p = base
            · simp only [hb, if_pos rfl] at h
              obtain ⟨rfl, rfl⟩ : ([] : List GitHash) = cs ∧ (none : Option GitHash) = stop := by
                simpa using h
              intro c hc
              have hcs : c = start := by simpa using hc
              subst hcs
              exact ⟨base, hb ▸ hp⟩
            · simp only [if_neg hb] at h
              rcases hw : walkBranch present heads base fuel p with e | ⟨cs', stop'⟩
              · simp [hw] at h
              · simp only [hw] at h
                obtain ⟨rfl, rfl⟩ : p :: cs' = cs ∧ stop' = stop := by
                  simpa using h
                intro c hc
                rcases List.mem_cons.mp hc with rfl | hc'
                · exact ⟨p, hp⟩
                · exact ih p cs' stop' hw c hc'
        · simp at h

theorem mapM_except_mem {α β : Type} (f : α → Except String β) :
    ∀ (l : List α) (out : List β), l.mapM f = .ok out → ∀ b ∈ out, ∃ a ∈ l, f a = .ok b := by
  intro l
  induction l with
  | nil =>
    intro out h b hb
    simp only [List.mapM_nil] at h
    obtain rfl : ([] : List β) = out := by simpa [pure, Except.pure] using h
    simp at hb
  | cons a as ih =>
    intro out h b hb
    rw [List.mapM_cons] at h
    rcases hfa : f a with e | b0 <;> rw [hfa] at h
    · simp [Bind.bind, Except.bind] at h
    · simp only [Bind.bind, Except.bind] at h
      rcases hrest : as.mapM f with e | bs <;> rw [hrest] at h
      · simp at h
      · obtain rfl : b0 :: bs = out := by simpa [pure, Except.pure] using h
        rcases List.mem_cons.mp hb with rfl | hb'
        · exact ⟨a, List.mem_cons_self a as, hfa⟩
        · obtain ⟨a', ha', hfa'⟩ := ih bs hrest b hb'
          exact ⟨a', List.mem_cons_of_mem a ha', hfa'⟩

theorem followChain_cons (fuel : Nat) (b : BranchCommits) (pool : List BranchCommits) :
    ∃ rest, followChain fuel b pool = b :: rest := by
  cases fuel with
  | zero => exact ⟨[], rfl⟩
  | succ fuel =>
    simp only [followChain]
    rcases hf : pool.find? (fun c => c.stop == some b.head) with _ | c <;> rw [hf]
    · exact ⟨[], rfl⟩
    · exact ⟨_, rfl⟩

theorem chainLinkedB_followChain :
    ∀ (fuel : Nat) (b : BranchCommits) (pool : List BranchCommits),
      chainLinkedB (followChain fuel b pool) = true := by
  intro fuel
  induction fuel with
  | zero => intro b pool; rfl
  | succ fuel ih =>
    intro b pool
    simp only [followChain]
    rcases hf : pool.find? (fun c => c.stop == some b.head) with _ | c <;> rw [hf]
    · rfl
    · obtain ⟨rest, hrest⟩ := followChain_cons fuel c (pool.erase c)
      have h1 : (c.stop == some b.head) = true := by simpa using List.find?_some hf
      show chainLinkedB (b :: followChain fuel c (pool.erase c)) = true
      rw [hrest]
      show ((c.stop == some b.head) && chainLinkedB (c :: rest)) = true
      rw [h1, ← hrest, ih c (pool.erase c)]
      rfl

theorem followChain_subset :
    ∀ (fuel : Nat) (b : BranchCommits) (pool : List BranchCommits),
      ∀ x ∈ followChain fuel b pool, x = b ∨ x ∈ pool := by
  intro fuel
  induction fuel with
  | zero =>
    intro b pool x hx
    left
    simpa [followChain] using hx
  | succ fuel ih =>
    intro b pool x hx
    simp only [followChain] at hx
    rcases hf : pool.find? (fun c => c.stop == some b.head) with _ | c <;> rw [hf] at hx
    · left; simpa using hx
    · rcases List.mem_cons.mp hx with rfl | hx'
      · left; rfl
      · rcases ih c (pool.erase c) x hx' with rfl | hx''
        · right; exact List.mem_of_find?_eq_some hf
        · right; exact List.mem_of_mem_erase hx''

/-- C9: characterization of findBranches.  On success there is exactly one
root branch (the unique walked branch whose walk reached the base commit),
the output starts at it and follows child links, and every commit collected
by a branch walk has exactly one parent; when the walks succeed but the root
count differs from one, or when any walk fails (in particular on a commit
whose parent count differs from one), findBranches returns an error. -/
theorem c9_find_branches (present : GitHash → Bool) (refs : List (String × GitHash))
    (base : GitHash) :
    (∀ bs, findBranches present refs base = .ok bs →
      ∃ walked root rest,
        walkAll present refs base = .ok walked ∧
        walked.filter (fun b => b.stop == none) = [root] ∧
        bs = root :: rest ∧ root.stop = none ∧
        chainLinkedB bs = true ∧
        ∀ b ∈ bs, ∀ c ∈ b.commits, ∃ p, getCommitParents present c = some [p]) ∧
    (∀ ws, walkAll present refs base = .ok ws →
      (ws.filter (fun b => b.stop == none)).length ≠ 1 →
      ∃ e, findBranches present refs base = .error e) ∧
    (∀ e, walkAll present refs base = .error e →
      findBranches present refs base = .error e) := by
  refine ⟨?_, ?_, ?_⟩
  · intro bs h
    unfold findBranches at h
    rcases hw : walkAll present refs base with e | walked
    · simp [hw] at h
    · simp only [hw] at h
      rcases hcu : checkUniqueChildren walked with e | u
      · simp [hcu] at h
      · cases u
        simp only [hcu] at h
        rcases hfil : walked.filter (fun b => b.stop == none) with _ | ⟨root, rtail⟩
        · simp [hfil] at h
        · rcases rtail with _ | ⟨r2, rr⟩
          · simp only [hfil] at h
            have hbs : bs = followChain walked.length root (walked.erase root) :=
              (Except.ok.inj h).symm
            obtain ⟨rest, hrest⟩ := followChain_cons walked.length root (walked.erase root)
            have hrootmem : root ∈ walked.filter (fun b => b.stop == none) := by
              rw [hfil]; exact List.mem_cons_self _ _
            refine ⟨walked, root, rest, rfl, hfil, by rw [hbs, hrest], ?_, ?_, ?_⟩
            · have := (List.mem_filter.mp hrootmem).2
              simpa using this
            · rw [hbs]; exact chainLinkedB_followChain _ _ _
            · intro b hb c hc
              have hbw : b ∈ walked := by
                rcases followChain_subset _ _ _ b (hbs ▸ hb) with rfl | hbp
                · exact List.mem_of_mem_filter hrootmem
                · exact List.mem_of_mem_erase hbp
              unfold walkAll at hw
              obtain ⟨rh, _, hrh⟩ := mapM_except_mem _ _ _ hw b hbw
              rcases hwb : walkBranch present ((dedupByHeadKeepLast refs).map (·.2)) base
                  (hsize rh.2 + 1) rh.2 with e | ⟨cs, stop⟩ <;> rw [hwb] at hrh
              · simp at hrh
              · have hb' : ({ ref := rh.1, head := rh.2, commits := rh.2 :: cs, stop := stop }
                    : BranchCommits) = b := Except.ok.inj hrh
                have := walkBranch_commits present _ base _ _ _ _ hwb c
                rw [← hb'] at hc
                exact this hc
          · simp [hfil] at h
  · intro ws hw hne
    unfold findBranches
    simp only [hw]
    rcases hcu : checkUniqueChildren ws with e | u
    · simp only [hcu]
      exact ⟨e, rfl⟩
    · cases u
      simp only [hcu]
      rcases hfil : ws.filter (fun b => b.stop == none) with _ | ⟨root, rtail⟩
      · simp only [hfil]
        exact ⟨"no root branches found", rfl⟩
      · rcases rtail with _ | ⟨r2, rr⟩
        · exact absurd (by rw [hfil]; rfl) hne
        · simp only [hfil]
          exact ⟨"multiple root branches found", rfl⟩
  · intro e hw
    unfold findBranches
    simp only [hw]

/-- C9 witness: two stacked branches; the root is the branch whose walk hits
the base, and the output follows the child link. -/
theorem c9_find_branches_witness :
    ∃ walked root rest,
      walkAll c9present c9refs c9base = .ok walked ∧
      walked.filter (fun b => b.stop == none) = [root] ∧
      ([⟨"refs/heads/b1", c9h1, [c9h1], none⟩,
        ⟨"refs/heads/b2", c9h2, [c9h2], some c9h1⟩] : List BranchCommits) = root :: rest ∧
      root.stop = none ∧
      chainLinkedB [⟨"refs/heads/b1", c9h1, [c9h1], none⟩,
        ⟨"refs/heads/b2", c9h2, [c9h2], some c9h1⟩] = true ∧
      ∀ b ∈ ([⟨"refs/heads/b1", c9h1, [c9h1], none⟩,
        ⟨"refs/heads/b2", c9h2, [c9h2], some c9h1⟩] : List BranchCommits),
        ∀ c ∈ b.commits, ∃ p, getCommitParents c9present c = some [p] :=
  (c9_find_branches c9present c9refs c9base).1
    [⟨"refs/heads/b1", c9h1, [c9h1], none⟩, ⟨"refs/heads/b2", c9h2, [c9h2], some c9h1⟩] rfl

end NicheGit
